import Mathlib

/-
  Verification development for the sparse-polynomial library in src/poly.cpp.

  The C++ class stores its terms in a `std::map<power, coeff, std::greater<power>>`:
  a finite map from exponent to coefficient whose iteration order is strictly
  descending in the exponent.  We embed that container as an association list
  `List (Nat × Int)` kept strictly descending in the first component; the
  map operation `terms[k] += v` (which default-inserts 0 when the key is
  absent) becomes `addTerm`.  The per-thread `std::unordered_map` accumulators
  of the parallel multiply are embedded with the same sorted association list:
  their keys are unique and the final merge `result.terms[kv.first] += kv.second`
  is insensitive to iteration order, so fixing a canonical iteration order
  loses nothing.  The C++ `power` is `size_t` (exponents, modelled as Nat: the
  code never produces a negative or overflowing exponent on the inputs
  considered) and the C++ `coeff` is the signed coefficient type (modelled as
  Int; coefficient overflow is declared out of scope by the design notes).
  C++ integer division `/` truncates toward zero, which is `Int.tdiv`.
-/

/-- The `terms` map of `polynomial`: association list, strictly descending keys.
The C++ `power` (a `size_t` exponent) is `Nat`; the C++ `coeff` (a signed
coefficient) is `Int`. -/
abbrev Terms := List (Nat × Int)

/-- `terms[k] += v` on the descending-ordered map: update the entry at key `k`
(`operator[]` default-inserts 0 first), keeping the descending key order. -/
def addTerm (m : Terms) (k : Nat) (v : Int) : Terms :=
  match m with
  | [] => [(k, v)]
  | (p, c) :: rest =>
    if p < k then (k, v) :: (p, c) :: rest
    else if p = k then (p, c + v) :: rest
    else (p, c) :: addTerm rest k v

/-- Reading `terms` at a key (0 when absent, as for a freshly default-inserted
entry; every site where the code reads `terms[k]` has the key present). -/
def coeffAt (m : Terms) (k : Nat) : Int :=
  match m with
  | [] => 0
  | (p, c) :: rest => if p = k then c else coeffAt rest k

/-- `clean` (poly.cpp lines 9-27): erase all zero-coefficient entries; if that
empties the map, reinsert the single `(0,0)` zero-polynomial sentinel. -/
def clean (m : Terms) : Terms :=
  let m' := m.filter (fun t => t.2 != 0)
  if m' = [] then [(0, 0)] else m'

/-- The default constructor `polynomial()`: `terms[0] = 0`. -/
def zeroPoly : Terms := [(0, 0)]

/-- `polynomial(Iter begin, Iter end)` (lines 81-89): fold the input pairs with
`terms[it->first] += it->second`, then `clean`. -/
def fromPairs (l : List (Nat × Int)) : Terms :=
  clean (l.foldl (fun m t => addTerm m t.1 t.2) [])

/-- `operator+(const polynomial&)` (lines 102-113): copy `this`, add every term
of `other` into the copy, `clean`. -/
def polyAdd (a b : Terms) : Terms :=
  clean (b.foldl (fun m t => addTerm m t.1 t.2) a)

/-- `operator+(int)` (lines 115-123): copy `this`, `result.terms[0] += x`, `clean`. -/
def polyAddInt (a : Terms) (x : Int) : Terms :=
  clean (addTerm a 0 x)

/-- `operator*(int)` (lines 224-235): multiply every stored coefficient, `clean`. -/
def scalarMul (a : Terms) (x : Int) : Terms :=
  clean (a.map (fun t => (t.1, t.2 * x)))

/-- The zero test used by `operator*` and `operator%`:
`terms.size() == 1 && terms.begin()->second == 0`. -/
def isZeroCheck : Terms → Bool
  | [(_, c)] => c == 0
  | _ => false

/-- The inner loop of `multiply_worker` (lines 49-54) and of the sequential
multiply path (lines 159-164): convolve one term of `a` against all of `b`,
accumulating `local[at.first + bt.first] += at.second * bt.second`. -/
def convolveInto (m : Terms) (t : Nat × Int) (b : Terms) : Terms :=
  b.foldl (fun acc bt => addTerm acc (t.1 + bt.1) (t.2 * bt.2)) m

/-- `multiply_worker` (lines 39-58): a worker's private accumulator after
convolving its assigned contiguous slice of `a`'s terms against all of `b`,
starting from an empty accumulator. -/
def multiply_worker (b : Terms) (slice : List (Nat × Int)) : Terms :=
  slice.foldl (fun m t => convolveInto m t b) []

/-- The merge phase (lines 212-218): fold every worker's accumulator into the
(cleared) result map with `result.terms[kv.first] += kv.second`. -/
def mergeLocals (ls : List Terms) : Terms :=
  ls.foldl (fun r pm => pm.foldl (fun m kv => addTerm m kv.1 kv.2) r) []

/-- The parallel branch of `operator*` (lines 171-221): `num_threads` many
ceiling-division chunks of `a`'s term sequence (`start = t*chunk`,
`end = min(n, start + chunk)`; an empty range leaves that worker's accumulator
empty), each convolved against all of `b`, then merged and cleaned. -/
def parMul (a b : Terms) : Terms :=
  let n := a.length
  let numThreads := min 8 n
  let chunk := (n + numThreads - 1) / numThreads
  let locals := (List.range numThreads).map (fun t =>
    multiply_worker b ((a.drop (t * chunk)).take (min n (t * chunk + chunk) - t * chunk)))
  clean (mergeLocals locals)

/-- `operator*(const polynomial&)` (lines 132-222): zero checks, empty checks,
then the sequential double loop when `min(8, a.size()) <= 1`, otherwise the
chunked parallel computation. -/
def polyMul (ta tb : Terms) : Terms :=
  if isZeroCheck ta || isZeroCheck tb then zeroPoly
  else if ta.isEmpty || tb.isEmpty then zeroPoly
  else if min 8 ta.length ≤ 1 then
    clean (ta.foldl (fun m t => convolveInto m t tb) [])
  else parMul ta tb

/-- `operator*` with the worker count pinned to 1: the sequential double-loop
path (lines 152-169) taken for every input that passes the degenerate checks. -/
def polyMulSeq (ta tb : Terms) : Terms :=
  if isZeroCheck ta || isZeroCheck tb then zeroPoly
  else if ta.isEmpty || tb.isEmpty then zeroPoly
  else clean (ta.foldl (fun m t => convolveInto m t tb) [])

/-- `find_degree_of` (lines 283-286): the key of the first entry.  The map is
never empty at any call site (every polynomial holds at least the sentinel);
the `(0,0)` default is never consulted. -/
def find_degree_of (m : Terms) : Nat :=
  (m.headD (0, 0)).1

/-- The guard of the division loop (line 256):
`remainder.find_degree_of() >= d.find_degree_of()` and `remainder` is not the
single-zero-entry map. -/
def modGuard (r d : Terms) : Bool :=
  decide (find_degree_of d ≤ find_degree_of r) && !(isZeroCheck r)

/-- One iteration of the division loop (lines 257-277): read the leading
entries, form the monomial `temp = (deg_r - deg_d, coef_r / coef_d)` with C++
truncating division, multiply it by `d` through `operator*`, subtract the
product term-wise from `remainder`, and `clean`. -/
def modStep (r d : Terms) : Terms :=
  let deg_r := find_degree_of r
  let deg_d := find_degree_of d
  let coef_r := coeffAt r deg_r
  let coef_d := coeffAt d deg_d
  let pow_shift := deg_r - deg_d
  let coef_shift := Int.tdiv coef_r coef_d
  let temp : Terms := [(pow_shift, coef_shift)]
  let subtract := polyMul temp d
  clean (subtract.foldl (fun m t => addTerm m t.1 (-t.2)) r)

/-- The division loop, fuel-indexed: `none` means the given iteration budget
was exhausted with the guard still true (the C++ loop would still be running). -/
def modLoop : Nat → Terms → Terms → Option Terms
  | 0, r, d => if modGuard r d then none else some r
  | fuel + 1, r, d => if modGuard r d then modLoop fuel (modStep r d) d else some r

/-- `operator%` (lines 242-281): throw on the zero divisor before any work,
otherwise clean both copies and run the reduction loop.  `some (Except.error s)`
is the thrown `std::runtime_error`; `some (Except.ok r)` is a normal return;
`none` means the loop did not finish within `fuel` iterations. -/
def polyMod (fuel : Nat) (ta td : Terms) : Option (Except String Terms) :=
  if isZeroCheck td then some (Except.error "Divide by zero polynomial")
  else (modLoop fuel (clean ta) (clean td)).map Except.ok

/-- `canonical_form` (lines 288-306): the entries with nonzero coefficient, in
map (descending-exponent) order; `[(0,0)]` if none remain. -/
def canonical_form (m : Terms) : Terms :=
  let out := m.filter (fun t => t.2 != 0)
  if out = [] then [(0, 0)] else out

/-- The ordering invariant of the `std::map` embedding: keys strictly
descending (hence unique). -/
def SortedT (m : Terms) : Prop :=
  List.Pairwise (fun s t : Nat × Int => t.1 < s.1) m

instance (m : Terms) : Decidable (SortedT m) := by
  unfold SortedT; infer_instance

/-- The representation invariant of a produced polynomial: descending unique
keys, nonempty, and either the `(0,0)` sentinel alone or no zero coefficient. -/
def Canonical (m : Terms) : Prop :=
  SortedT m ∧ m ≠ [] ∧ (m = [(0, 0)] ∨ ∀ t ∈ m, t.2 ≠ 0)

instance (m : Terms) : Decidable (Canonical m) := by
  unfold Canonical; infer_instance

/-- Spec-side coefficient of the convolution contributed by the single term `t`
of the left operand against all of `b` (spec §4.2: "for every pair of terms
(pa, ca) in A and (pb, cb) in B, accumulate ca·cb into the output coefficient
at exponent pa+pb"). -/
def pairSum (t : Nat × Int) (b : Terms) (j : Nat) : Int :=
  (b.map (fun bt => if t.1 + bt.1 = j then t.2 * bt.2 else 0)).sum

/-- Spec-side convolution coefficient function of A and B at exponent `j`. -/
def convFun (a b : Terms) (j : Nat) : Int :=
  (a.map (fun t => pairSum t b j)).sum

/-- Sum of the values carried by key `j` in a raw entry list. -/
def keySum (l : List (Nat × Int)) (j : Nat) : Int :=
  (l.map (fun t => if t.1 = j then t.2 else 0)).sum

/-! ### Basic lemmas about the ordered-map embedding -/

theorem sorted_head_gt {p : Nat} {c : Int} {rest : Terms}
    (h : SortedT ((p, c) :: rest)) : ∀ t ∈ rest, t.1 < p :=
  (List.pairwise_cons.mp h).1

theorem sorted_tail {hd : Nat × Int} {tl : Terms}
    (h : SortedT (hd :: tl)) : SortedT tl :=
  (List.pairwise_cons.mp h).2

theorem coeffAt_eq_zero {j : Nat} :
    ∀ {m : Terms}, (∀ t ∈ m, t.1 ≠ j) → coeffAt m j = 0 := by
  intro m
  induction m with
  | nil => intro _; rfl
  | cons hd tl ih =>
    obtain ⟨p, c⟩ := hd
    intro h
    simp only [coeffAt]
    rw [if_neg (h (p, c) (List.mem_cons_self _ _))]
    exact ih (fun t ht => h t (List.mem_cons_of_mem _ ht))

theorem coeffAt_head {p : Nat} {c : Int} {rest : Terms} :
    coeffAt ((p, c) :: rest) p = c := by
  simp [coeffAt]

theorem addTerm_key_mem {k : Nat} {v : Int} :
    ∀ {m : Terms} {t : Nat × Int}, t ∈ addTerm m k v → t.1 = k ∨ t ∈ m := by
  intro m
  induction m with
  | nil =>
    intro t ht
    simp only [addTerm, List.mem_singleton] at ht
    exact Or.inl (by rw [ht])
  | cons hd tl ih =>
    obtain ⟨p, c⟩ := hd
    intro t ht
    simp only [addTerm] at ht
    by_cases h1 : p < k
    · rw [if_pos h1] at ht
      rcases List.mem_cons.mp ht with ht | ht
      · exact Or.inl (by rw [ht])
      · exact Or.inr ht
    · rw [if_neg h1] at ht
      by_cases h2 : p = k
      · rw [if_pos h2] at ht
        rcases List.mem_cons.mp ht with ht | ht
        · exact Or.inl (by rw [ht]; exact h2)
        · exact Or.inr (List.mem_cons_of_mem _ ht)
      · rw [if_neg h2] at ht
        rcases List.mem_cons.mp ht with ht | ht
        · exact Or.inr (by rw [ht]; exact List.mem_cons_self _ _)
        · rcases ih ht with h | h
          · exact Or.inl h
          · exact Or.inr (List.mem_cons_of_mem _ h)

theorem sorted_addTerm {k : Nat} {v : Int} :
    ∀ {m : Terms}, SortedT m → SortedT (addTerm m k v) := by
  intro m
  induction m with
  | nil =>
    intro _
    simp [addTerm, SortedT]
  | cons hd tl ih =>
    obtain ⟨p, c⟩ := hd
    intro hs
    simp only [addTerm]
    by_cases h1 : p < k
    · rw [if_pos h1]
      refine List.pairwise_cons.mpr ⟨?_, hs⟩
      intro t ht
      rcases List.mem_cons.mp ht with ht | ht
      · rw [ht]; exact h1
      · exact lt_trans (sorted_head_gt hs t ht) h1
    · rw [if_neg h1]
      by_cases h2 : p = k
      · rw [if_pos h2]
        exact List.pairwise_cons.mpr ⟨sorted_head_gt hs, sorted_tail hs⟩
      · rw [if_neg h2]
        refine List.pairwise_cons.mpr ⟨?_, ih (sorted_tail hs)⟩
        intro t ht
        rcases addTerm_key_mem ht with h | h
        · rw [h]; omega
        · exact sorted_head_gt hs t h

theorem coeffAt_addTerm {k j : Nat} {v : Int} :
    ∀ {m : Terms}, SortedT m →
      coeffAt (addTerm m k v) j = coeffAt m j + (if j = k then v else 0) := by
  intro m
  induction m with
  | nil =>
    intro _
    simp only [addTerm, coeffAt]
    split_ifs <;> omega
  | cons hd tl ih =>
    obtain ⟨p, c⟩ := hd
    intro hs
    simp only [addTerm]
    by_cases h1 : p < k
    · rw [if_pos h1]
      simp only [coeffAt]
      by_cases hj : j = k
      · subst hj
        have hz : coeffAt tl j = 0 := by
          apply coeffAt_eq_zero
          intro t ht
          have := sorted_head_gt hs t ht
          omega
        split_ifs <;> omega
      · split_ifs <;> omega
    · rw [if_neg h1]
      by_cases h2 : p = k
      · rw [if_pos h2]
        subst h2
        simp only [coeffAt]
        split_ifs <;> omega
      · rw [if_neg h2]
        simp only [coeffAt]
        by_cases hj : p = j
        · rw [if_pos hj, if_pos hj, if_neg (by omega : ¬j = k)]
          ring
        · rw [if_neg hj, if_neg hj]
          exact ih (sorted_tail hs)

theorem sorted_foldl_addTerm :
    ∀ (l : List (Nat × Int)) {m : Terms}, SortedT m →
      SortedT (l.foldl (fun acc t => addTerm acc t.1 t.2) m) := by
  intro l
  induction l with
  | nil => intro m hm; exact hm
  | cons hd tl ih =>
    intro m hm
    exact ih (sorted_addTerm hm)

theorem coeffAt_foldl_addTerm {j : Nat} :
    ∀ (l : List (Nat × Int)) {m : Terms}, SortedT m →
      coeffAt (l.foldl (fun acc t => addTerm acc t.1 t.2) m) j
        = coeffAt m j + keySum l j := by
  intro l
  induction l with
  | nil => intro m _; simp [keySum]
  | cons hd tl ih =>
    intro m hm
    simp only [List.foldl_cons]
    rw [ih (sorted_addTerm hm), coeffAt_addTerm hm]
    simp only [keySum, List.map_cons, List.sum_cons]
    by_cases h : hd.1 = j
    · rw [if_pos h, if_pos (h.symm)]; ring
    · rw [if_neg h, if_neg (fun hh => h hh.symm)]; ring

theorem keySum_eq_coeffAt {j : Nat} :
    ∀ {l : Terms}, SortedT l → keySum l j = coeffAt l j := by
  intro l
  induction l with
  | nil => intro _; rfl
  | cons hd tl ih =>
    obtain ⟨p, c⟩ := hd
    intro hs
    simp only [keySum, List.map_cons, List.sum_cons, coeffAt]
    by_cases h : p = j
    · rw [if_pos h, if_pos h]
      have hz : coeffAt tl j = 0 := by
        apply coeffAt_eq_zero
        intro t ht
        have := sorted_head_gt hs t ht
        omega
      have : keySum tl j = 0 := by
        apply List.sum_eq_zero
        intro x hx
        rcases List.mem_map.mp hx with ⟨t, ht, rfl⟩
        rw [if_neg (by have := sorted_head_gt hs t ht; omega)]
      unfold keySum at this
      rw [this]; ring
    · rw [if_neg h, if_neg h]
      have := ih (sorted_tail hs)
      unfold keySum at this
      rw [this]; ring

theorem coeffAt_all_zero {j : Nat} :
    ∀ {m : Terms}, (∀ t ∈ m, t.2 = 0) → coeffAt m j = 0 := by
  intro m
  induction m with
  | nil => intro _; rfl
  | cons hd tl ih =>
    obtain ⟨p, c⟩ := hd
    intro h
    simp only [coeffAt]
    by_cases hp : p = j
    · rw [if_pos hp]
      exact h (p, c) (List.mem_cons_self _ _)
    · rw [if_neg hp]
      exact ih (fun t ht => h t (List.mem_cons_of_mem _ ht))

theorem coeffAt_filter_nz {j : Nat} :
    ∀ {m : Terms}, SortedT m →
      coeffAt (m.filter (fun t => t.2 != 0)) j = coeffAt m j := by
  intro m
  induction m with
  | nil => intro _; rfl
  | cons hd tl ih =>
    obtain ⟨p, c⟩ := hd
    intro hs
    by_cases hc : c = 0
    · subst hc
      rw [List.filter_cons_of_neg (by simp)]
      rw [ih (sorted_tail hs)]
      simp only [coeffAt]
      by_cases hp : p = j
      · rw [if_pos hp]
        apply coeffAt_eq_zero
        intro t ht
        have := sorted_head_gt hs t ht
        omega
      · rw [if_neg hp]
    · rw [List.filter_cons_of_pos (by simp [hc])]
      simp only [coeffAt]
      by_cases hp : p = j
      · rw [if_pos hp, if_pos hp]
      · rw [if_neg hp, if_neg hp]
        exact ih (sorted_tail hs)

theorem coeffAt_clean {j : Nat} {m : Terms} (hs : SortedT m) :
    coeffAt (clean m) j = coeffAt m j := by
  unfold clean
  by_cases h : m.filter (fun t => t.2 != 0) = []
  · rw [if_pos h]
    have hz : ∀ t ∈ m, t.2 = 0 := by
      intro t ht
      have := List.filter_eq_nil_iff.mp h t ht
      simpa using this
    rw [coeffAt_all_zero hz]
    simp [coeffAt]
  · rw [if_neg h]
    exact coeffAt_filter_nz hs

theorem sorted_clean {m : Terms} (hs : SortedT m) : SortedT (clean m) := by
  unfold clean
  by_cases h : m.filter (fun t => t.2 != 0) = []
  · rw [if_pos h]
    simp [SortedT]
  · rw [if_neg h]
    exact List.Pairwise.filter _ hs

theorem canonical_clean {m : Terms} (hs : SortedT m) : Canonical (clean m) := by
  refine ⟨sorted_clean hs, ?_, ?_⟩
  · unfold clean
    by_cases h : m.filter (fun t => t.2 != 0) = []
    · rw [if_pos h]; simp
    · rw [if_neg h]; exact h
  · unfold clean
    by_cases h : m.filter (fun t => t.2 != 0) = []
    · rw [if_pos h]; exact Or.inl rfl
    · rw [if_neg h]
      refine Or.inr ?_
      intro t ht
      have := (List.mem_filter.mp ht).2
      simpa using this

/-! ### Extensionality: a sorted zero-free list is determined by `coeffAt` -/

theorem eq_of_coeffAt_eq :
    ∀ {m₁ : Terms} {m₂ : Terms}, SortedT m₁ → SortedT m₂ →
      (∀ t ∈ m₁, t.2 ≠ 0) → (∀ t ∈ m₂, t.2 ≠ 0) →
      (∀ j, coeffAt m₁ j = coeffAt m₂ j) → m₁ = m₂ := by
  intro m₁
  induction m₁ with
  | nil =>
    intro m₂ _ _ _ hz₂ hj
    match m₂ with
    | [] => rfl
    | (p, c) :: rest =>
      exfalso
      have h := hj p
      rw [coeffAt_head] at h
      exact hz₂ (p, c) (List.mem_cons_self _ _) (by simpa [coeffAt] using h.symm)
  | cons hd tl ih =>
    obtain ⟨p₁, c₁⟩ := hd
    intro m₂ hs₁ hs₂ hz₁ hz₂ hj
    match m₂ with
    | [] =>
      exfalso
      have h := hj p₁
      rw [coeffAt_head] at h
      exact hz₁ (p₁, c₁) (List.mem_cons_self _ _) (by simpa [coeffAt] using h)
    | (p₂, c₂) :: r₂ =>
      have hc₁ : c₁ ≠ 0 := hz₁ (p₁, c₁) (List.mem_cons_self _ _)
      have hc₂ : c₂ ≠ 0 := hz₂ (p₂, c₂) (List.mem_cons_self _ _)
      have hpeq : p₁ = p₂ := by
        by_contra hne
        rcases Nat.lt_or_ge p₂ p₁ with hlt | hge
        · have h := hj p₁
          rw [coeffAt_head] at h
          have hz : coeffAt ((p₂, c₂) :: r₂) p₁ = 0 := by
            apply coeffAt_eq_zero
            intro t ht
            rcases List.mem_cons.mp ht with ht | ht
            · rw [ht]; omega
            · have := sorted_head_gt hs₂ t ht; omega
          exact hc₁ (h.trans hz)
        · have hlt : p₁ < p₂ := by omega
          have h := (hj p₂).symm
          rw [coeffAt_head] at h
          have hz : coeffAt ((p₁, c₁) :: tl) p₂ = 0 := by
            apply coeffAt_eq_zero
            intro t ht
            rcases List.mem_cons.mp ht with ht | ht
            · rw [ht]; omega
            · have := sorted_head_gt hs₁ t ht; omega
          exact hc₂ (h.trans hz)
      subst hpeq
      have hceq : c₁ = c₂ := by
        have h := hj p₁
        rw [coeffAt_head, coeffAt_head] at h
        exact h
      subst hceq
      have htl : tl = r₂ := by
        apply ih (sorted_tail hs₁) (sorted_tail hs₂)
          (fun t ht => hz₁ t (List.mem_cons_of_mem _ ht))
          (fun t ht => hz₂ t (List.mem_cons_of_mem _ ht))
        intro j
        by_cases hjp : j = p₁
        · subst hjp
          rw [coeffAt_eq_zero (fun t ht => by have := sorted_head_gt hs₁ t ht; omega),
              coeffAt_eq_zero (fun t ht => by have := sorted_head_gt hs₂ t ht; omega)]
        · have h := hj j
          simp only [coeffAt] at h
          rw [if_neg (fun hh => hjp hh.symm), if_neg (fun hh => hjp hh.symm)] at h
          exact h
      rw [htl]

theorem filter_nz_sorted {m : Terms} (hs : SortedT m) :
    SortedT (m.filter (fun t => t.2 != 0)) :=
  List.Pairwise.filter _ hs

theorem mem_filter_nz_ne_zero {m : Terms} {t : Nat × Int}
    (ht : t ∈ m.filter (fun t => t.2 != 0)) : t.2 ≠ 0 := by
  have := (List.mem_filter.mp ht).2
  simpa using this

theorem clean_eq_clean {m₁ m₂ : Terms} (hs₁ : SortedT m₁) (hs₂ : SortedT m₂)
    (hj : ∀ j, coeffAt m₁ j = coeffAt m₂ j) : clean m₁ = clean m₂ := by
  have key : ∀ j, coeffAt (m₁.filter (fun t => t.2 != 0)) j
      = coeffAt (m₂.filter (fun t => t.2 != 0)) j := by
    intro j
    rw [coeffAt_filter_nz hs₁, coeffAt_filter_nz hs₂]
    exact hj j
  have := eq_of_coeffAt_eq (filter_nz_sorted hs₁) (filter_nz_sorted hs₂)
    (fun t ht => mem_filter_nz_ne_zero ht) (fun t ht => mem_filter_nz_ne_zero ht) key
  unfold clean
  rw [this]

theorem clean_of_canonical {m : Terms} (hc : Canonical m) : clean m = m := by
  obtain ⟨hs, hne, hz⟩ := hc
  rcases hz with hz | hz
  · subst hz; rfl
  · unfold clean
    have : m.filter (fun t => t.2 != 0) = m := by
      apply List.filter_eq_self.mpr
      intro t ht
      simpa using hz t ht
    rw [this, if_neg hne]

theorem canonical_form_eq_clean (m : Terms) : canonical_form m = clean m := rfl

/-! ### Degree lemmas -/

theorem coeffAt_gt_degree {m : Terms} (hs : SortedT m) {j : Nat}
    (hj : find_degree_of m < j) : coeffAt m j = 0 := by
  match m with
  | [] => rfl
  | (p, c) :: rest =>
    apply coeffAt_eq_zero
    intro t ht
    rcases List.mem_cons.mp ht with ht | ht
    · rw [ht]
      simp only [find_degree_of, List.headD] at hj
      omega
    · have := sorted_head_gt hs t ht
      simp only [find_degree_of, List.headD] at hj
      omega

theorem degree_lt_of_coeffAt_zero {m : Terms} (hc : Canonical m) {D : Nat}
    (hz : ∀ j, D ≤ j → coeffAt m j = 0) :
    m = [(0, 0)] ∨ find_degree_of m < D := by
  obtain ⟨hs, hne, hcz⟩ := hc
  rcases hcz with h0 | hall
  · exact Or.inl h0
  · right
    match m, hne with
    | (p, c) :: rest, _ =>
      have hc : c ≠ 0 := hall (p, c) (List.mem_cons_self _ _)
      by_contra hge
      have hpd : D ≤ p := by
        simp only [find_degree_of, List.headD] at hge ⊢
        omega
      have := hz p hpd
      rw [coeffAt_head] at this
      exact hc this

theorem leading_coeff_ne_zero {m : Terms} (hc : Canonical m)
    (hnz : isZeroCheck m = false) : coeffAt m (find_degree_of m) ≠ 0 := by
  obtain ⟨hs, hne, hcz⟩ := hc
  rcases hcz with h0 | hall
  · subst h0; simp [isZeroCheck] at hnz
  · match m, hne with
    | (p, c) :: rest, _ =>
      simp only [find_degree_of, List.headD]
      rw [coeffAt_head]
      exact hall (p, c) (List.mem_cons_self _ _)

theorem isZeroCheck_iff {m : Terms} (hc : Canonical m) :
    isZeroCheck m = true ↔ m = [(0, 0)] := by
  constructor
  · intro h
    obtain ⟨hs, hne, hcz⟩ := hc
    rcases hcz with h0 | hall
    · exact h0
    · match m, h with
      | [(p, c)], h =>
        have : c = 0 := by simpa [isZeroCheck] using h
        exact absurd this (hall (p, c) (List.mem_cons_self _ _))
  · intro h; subst h; rfl

/-! ### Convolution lemmas: workers, merge, and the coefficient function -/

theorem convolveInto_eq_foldl (m : Terms) (t : Nat × Int) (b : Terms) :
    convolveInto m t b
      = (b.map (fun bt => (t.1 + bt.1, t.2 * bt.2))).foldl
          (fun acc s => addTerm acc s.1 s.2) m := by
  rw [List.foldl_map]
  rfl

theorem sorted_convolveInto {m : Terms} (hs : SortedT m) (t : Nat × Int)
    (b : Terms) : SortedT (convolveInto m t b) := by
  rw [convolveInto_eq_foldl]
  exact sorted_foldl_addTerm _ hs

theorem coeffAt_convolveInto {m : Terms} (hs : SortedT m) (t : Nat × Int)
    (b : Terms) (j : Nat) :
    coeffAt (convolveInto m t b) j = coeffAt m j + pairSum t b j := by
  rw [convolveInto_eq_foldl, coeffAt_foldl_addTerm _ hs]
  congr 1
  simp only [keySum, pairSum, List.map_map, Function.comp_def]

theorem sorted_worker_fold (b : Terms) :
    ∀ (c : List (Nat × Int)) {m : Terms}, SortedT m →
      SortedT (c.foldl (fun acc t => convolveInto acc t b) m) := by
  intro c
  induction c with
  | nil => intro m hm; exact hm
  | cons hd tl ih => intro m hm; exact ih (sorted_convolveInto hm hd b)

theorem coeffAt_worker_fold (b : Terms) (j : Nat) :
    ∀ (c : List (Nat × Int)) {m : Terms}, SortedT m →
      coeffAt (c.foldl (fun acc t => convolveInto acc t b) m) j
        = coeffAt m j + convFun c b j := by
  intro c
  induction c with
  | nil => intro m _; simp [convFun]
  | cons hd tl ih =>
    intro m hm
    simp only [List.foldl_cons]
    rw [ih (sorted_convolveInto hm hd b), coeffAt_convolveInto hm hd b]
    simp only [convFun, List.map_cons, List.sum_cons]
    ring

theorem sorted_multiply_worker (b : Terms) (c : List (Nat × Int)) :
    SortedT (multiply_worker b c) :=
  sorted_worker_fold b c List.Pairwise.nil

theorem coeffAt_multiply_worker (b : Terms) (c : List (Nat × Int)) (j : Nat) :
    coeffAt (multiply_worker b c) j = convFun c b j := by
  unfold multiply_worker
  rw [coeffAt_worker_fold b j c List.Pairwise.nil]
  simp [coeffAt]

theorem sorted_merge_fold :
    ∀ (ls : List Terms) {m : Terms}, SortedT m →
      SortedT (ls.foldl (fun r pm => pm.foldl (fun acc kv => addTerm acc kv.1 kv.2) r) m) := by
  intro ls
  induction ls with
  | nil => intro m hm; exact hm
  | cons hd tl ih => intro m hm; exact ih (sorted_foldl_addTerm _ hm)

theorem coeffAt_merge_fold (j : Nat) :
    ∀ (ls : List Terms) {m : Terms}, SortedT m → (∀ pm ∈ ls, SortedT pm) →
      coeffAt (ls.foldl (fun r pm => pm.foldl (fun acc kv => addTerm acc kv.1 kv.2) r) m) j
        = coeffAt m j + (ls.map (fun pm => coeffAt pm j)).sum := by
  intro ls
  induction ls with
  | nil => intro m _ _; simp
  | cons hd tl ih =>
    intro m hm hall
    simp only [List.foldl_cons]
    rw [ih (sorted_foldl_addTerm _ hm) (fun pm hpm => hall pm (List.mem_cons_of_mem _ hpm)),
        coeffAt_foldl_addTerm _ hm,
        keySum_eq_coeffAt (hall hd (List.mem_cons_self _ _))]
    simp only [List.map_cons, List.sum_cons]
    ring

theorem sorted_mergeLocals (ls : List Terms) : SortedT (mergeLocals ls) :=
  sorted_merge_fold ls List.Pairwise.nil

theorem coeffAt_mergeLocals (ls : List Terms) (hall : ∀ pm ∈ ls, SortedT pm) (j : Nat) :
    coeffAt (mergeLocals ls) j = (ls.map (fun pm => coeffAt pm j)).sum := by
  unfold mergeLocals
  rw [coeffAt_merge_fold j ls List.Pairwise.nil hall]
  simp [coeffAt]

theorem convFun_append (c₁ c₂ b : Terms) (j : Nat) :
    convFun (c₁ ++ c₂) b j = convFun c₁ b j + convFun c₂ b j := by
  simp [convFun, List.map_append, List.sum_append]

theorem convFun_flatten (b : Terms) (j : Nat) :
    ∀ (cs : List (List (Nat × Int))),
      convFun cs.flatten b j = (cs.map (fun c => convFun c b j)).sum := by
  intro cs
  induction cs with
  | nil => simp [convFun]
  | cons hd tl ih =>
    rw [List.flatten_cons, convFun_append]
    simp only [List.map_cons, List.sum_cons]
    rw [ih]

/-! ### The ceiling-division chunking covers the term list -/

theorem ceil_mul_ge (n W : Nat) (hW : 0 < W) : n ≤ W * ((n + W - 1) / W) := by
  have h1 := Nat.div_add_mod (n + W - 1) W
  have h2 := Nat.mod_lt (n + W - 1) hW
  omega

theorem take_chunk_eq {α : Type} (l : List α) (s c : Nat) :
    (l.drop s).take (min l.length (s + c) - s) = (l.drop s).take c := by
  rw [List.take_eq_take]
  simp only [List.length_drop]
  omega

theorem chunks_flatten {α : Type} :
    ∀ (k : Nat) (c : Nat) (l : List α), l.length ≤ k * c →
      ((List.range k).map (fun t => (l.drop (t * c)).take c)).flatten = l := by
  intro k
  induction k with
  | zero =>
    intro c l h
    simp only [Nat.zero_mul] at h
    have : l = [] := List.eq_nil_of_length_eq_zero (by omega)
    subst this; rfl
  | succ k ih =>
    intro c l h
    rw [List.range_succ_eq_map, List.map_cons, List.map_map, List.flatten_cons]
    have h0 : (l.drop (0 * c)).take c = l.take c := by simp
    rw [h0]
    have hcomp : ((fun t => (l.drop (t * c)).take c) ∘ Nat.succ)
        = fun t => (((l.drop c).drop (t * c)).take c) := by
      funext t
      simp only [Function.comp]
      rw [List.drop_drop]
      have : Nat.succ t * c = c + t * c := by rw [Nat.succ_mul, Nat.add_comm]
      rw [this]
    rw [hcomp]
    have hlen : (l.drop c).length ≤ k * c := by
      have h' : l.length ≤ k * c + c := by
        rw [Nat.succ_mul] at h; exact h
      simp only [List.length_drop]
      omega
    rw [ih c (l.drop c) hlen, List.take_append_drop]

/-! ### The multiplication engine computes the convolution -/

theorem pairSum_zero_coeff {k j : Nat} (b : Terms) : pairSum (k, (0 : Int)) b j = 0 := by
  apply List.sum_eq_zero
  intro x hx
  rcases List.mem_map.mp hx with ⟨bt, _, rfl⟩
  split_ifs <;> simp

theorem convFun_left_zero {p : Nat} (b : Terms) (j : Nat) :
    convFun [(p, (0 : Int))] b j = 0 := by
  simp [convFun, pairSum_zero_coeff]

theorem convFun_right_zero (a : Terms) {p : Nat} (j : Nat) :
    convFun a [(p, (0 : Int))] j = 0 := by
  apply List.sum_eq_zero
  intro x hx
  rcases List.mem_map.mp hx with ⟨t, _, rfl⟩
  simp [pairSum]

theorem coeffAt_zeroPoly (j : Nat) : coeffAt zeroPoly j = 0 := by
  unfold zeroPoly coeffAt
  split_ifs <;> rfl

theorem isZeroCheck_shape {a : Terms} (h : isZeroCheck a = true) :
    ∃ p, a = [(p, 0)] := by
  match a, h with
  | [(p, c)], h =>
    have hc : c = 0 := by simpa [isZeroCheck] using h
    exact ⟨p, by rw [hc]⟩

theorem coeffAt_mergeChunks (a b : Terms) (W ch : Nat) (hcov : a.length ≤ W * ch)
    (j : Nat) :
    coeffAt (mergeLocals ((List.range W).map (fun t =>
        multiply_worker b ((a.drop (t * ch)).take (min a.length (t * ch + ch) - t * ch))))) j
      = convFun a b j := by
  rw [coeffAt_mergeLocals _ (by
    intro pm hpm
    rcases List.mem_map.mp hpm with ⟨t, _, rfl⟩
    exact sorted_multiply_worker _ _)]
  rw [List.map_map]
  have hfun : ((fun pm => coeffAt pm j) ∘ (fun t =>
        multiply_worker b ((a.drop (t * ch)).take (min a.length (t * ch + ch) - t * ch))))
      = fun t => convFun ((a.drop (t * ch)).take ch) b j := by
    funext t
    simp only [Function.comp_def]
    rw [coeffAt_multiply_worker, take_chunk_eq]
  rw [hfun]
  have hsplit : (List.range W).map (fun t => convFun ((a.drop (t * ch)).take ch) b j)
      = ((List.range W).map (fun t => (a.drop (t * ch)).take ch)).map
          (fun c => convFun c b j) := by
    rw [List.map_map]
    rfl
  rw [hsplit, ← convFun_flatten, chunks_flatten W ch a hcov]

theorem coeffAt_polyMul (a b : Terms) (j : Nat) :
    coeffAt (polyMul a b) j = convFun a b j := by
  unfold polyMul
  by_cases hz : isZeroCheck a || isZeroCheck b
  · rw [if_pos hz, coeffAt_zeroPoly]
    rcases Bool.or_eq_true_iff.mp hz with h | h
    · rcases isZeroCheck_shape h with ⟨p, rfl⟩
      rw [convFun_left_zero]
    · rcases isZeroCheck_shape h with ⟨p, rfl⟩
      rw [convFun_right_zero]
  · rw [if_neg hz]
    by_cases he : a.isEmpty || b.isEmpty
    · rw [if_pos he, coeffAt_zeroPoly]
      rcases Bool.or_eq_true_iff.mp he with h | h
      · rw [List.isEmpty_iff.mp h]
        simp [convFun]
      · rw [List.isEmpty_iff.mp h]
        apply (List.sum_eq_zero _).symm
        intro x hx
        rcases List.mem_map.mp hx with ⟨t, _, rfl⟩
        simp [pairSum]
    · rw [if_neg he]
      by_cases hsmall : min 8 a.length ≤ 1
      · rw [if_pos hsmall]
        rw [show (a.foldl (fun m t => convolveInto m t b) []) = multiply_worker b a from rfl]
        rw [coeffAt_clean (sorted_multiply_worker b a), coeffAt_multiply_worker]
      · rw [if_neg hsmall]
        have ha : 1 ≤ a.length := by
          by_contra h
          have : a.length = 0 := by omega
          rw [List.isEmpty_iff.mpr (List.eq_nil_of_length_eq_zero this)] at he
          simp at he
        simp only [parMul]
        rw [coeffAt_clean (sorted_mergeLocals _)]
        exact coeffAt_mergeChunks a b (min 8 a.length)
          ((a.length + min 8 a.length - 1) / min 8 a.length)
          (ceil_mul_ge a.length (min 8 a.length) (by omega)) j

theorem sorted_polyMul (a b : Terms) : SortedT (polyMul a b) := by
  unfold polyMul
  split_ifs
  · exact (by decide : SortedT zeroPoly)
  · exact (by decide : SortedT zeroPoly)
  · exact sorted_clean (sorted_multiply_worker b a)
  · simp only [parMul]
    exact sorted_clean (sorted_mergeLocals _)

theorem canonical_polyMul (a b : Terms) : Canonical (polyMul a b) := by
  unfold polyMul
  split_ifs
  · exact (by decide : Canonical zeroPoly)
  · exact (by decide : Canonical zeroPoly)
  · exact canonical_clean (sorted_multiply_worker b a)
  · simp only [parMul]
    exact canonical_clean (sorted_mergeLocals _)

theorem polyMul_eq_polyMulSeq (a b : Terms) : polyMul a b = polyMulSeq a b := by
  unfold polyMul polyMulSeq
  by_cases hz : isZeroCheck a || isZeroCheck b
  · rw [if_pos hz, if_pos hz]
  · rw [if_neg hz, if_neg hz]
    by_cases he : a.isEmpty || b.isEmpty
    · rw [if_pos he, if_pos he]
    · rw [if_neg he, if_neg he]
      by_cases hsmall : min 8 a.length ≤ 1
      · rw [if_pos hsmall]
      · rw [if_neg hsmall]
        have ha : 1 ≤ a.length := by
          by_contra h
          have : a.length = 0 := by omega
          rw [List.isEmpty_iff.mpr (List.eq_nil_of_length_eq_zero this)] at he
          simp at he
        simp only [parMul]
        apply clean_eq_clean (sorted_mergeLocals _) (sorted_multiply_worker b a)
        intro j
        rw [coeffAt_multiply_worker]
        exact coeffAt_mergeChunks a b (min 8 a.length)
          ((a.length + min 8 a.length - 1) / min 8 a.length)
          (ceil_mul_ge a.length (min 8 a.length) (by omega)) j

/-! ### Division-loop lemmas -/

theorem negFold_eq (l : List (Nat × Int)) (m : Terms) :
    l.foldl (fun acc t => addTerm acc t.1 (-t.2)) m
      = (l.map (fun t => (t.1, -t.2))).foldl (fun acc s => addTerm acc s.1 s.2) m := by
  rw [List.foldl_map]

theorem sum_map_neg {α : Type} (l : List α) (f : α → Int) :
    (l.map (fun x => -(f x))).sum = -((l.map f).sum) := by
  induction l with
  | nil => simp
  | cons hd tl ih => simp [ih, neg_add]; ring

theorem keySum_negMap (l : List (Nat × Int)) (j : Nat) :
    keySum (l.map (fun t => (t.1, -t.2))) j = -keySum l j := by
  unfold keySum
  rw [List.map_map]
  have : ((fun t : Nat × Int => if t.1 = j then t.2 else 0) ∘ (fun t : Nat × Int => (t.1, -t.2)))
      = fun t : Nat × Int => -(if t.1 = j then t.2 else 0) := by
    funext t
    simp only [Function.comp_def]
    split_ifs <;> simp
  rw [this, sum_map_neg]

theorem coeffAt_subFold {r : Terms} (hr : SortedT r) {s : Terms} (hs : SortedT s)
    (j : Nat) :
    coeffAt (s.foldl (fun m t => addTerm m t.1 (-t.2)) r) j
      = coeffAt r j - coeffAt s j := by
  rw [negFold_eq, coeffAt_foldl_addTerm _ hr, keySum_negMap, keySum_eq_coeffAt hs]
  ring

theorem sorted_subFold {r : Terms} (hr : SortedT r) (s : Terms) :
    SortedT (s.foldl (fun m t => addTerm m t.1 (-t.2)) r) := by
  rw [negFold_eq]
  exact sorted_foldl_addTerm _ hr

theorem canonical_modStep (r d : Terms) (hr : SortedT r) : Canonical (modStep r d) := by
  simp only [modStep]
  exact canonical_clean (sorted_subFold hr _)

theorem modGuard_false_cases {r d : Terms} (hc : Canonical r)
    (h : modGuard r d = false) :
    find_degree_of r < find_degree_of d ∨ r = [(0, 0)] := by
  by_cases hdeg : find_degree_of d ≤ find_degree_of r
  · right
    have hz : isZeroCheck r = true := by
      unfold modGuard at h
      rw [decide_eq_true hdeg] at h
      simpa using h
    exact (isZeroCheck_iff hc).mp hz
  · left; omega

theorem modLoop_some {d : Terms} :
    ∀ (fuel : Nat) {r res : Terms}, Canonical r → modLoop fuel r d = some res →
      Canonical res ∧ modGuard res d = false := by
  intro fuel
  induction fuel with
  | zero =>
    intro r res hr heq
    unfold modLoop at heq
    by_cases hg : modGuard r d = true
    · rw [if_pos hg] at heq
      exact absurd heq (by simp)
    · rw [if_neg hg] at heq
      cases heq
      exact ⟨hr, by simpa using hg⟩
  | succ fuel ih =>
    intro r res hr heq
    unfold modLoop at heq
    by_cases hg : modGuard r d = true
    · rw [if_pos hg] at heq
      exact ih (canonical_modStep r d hr.1) heq
    · rw [if_neg hg] at heq
      cases heq
      exact ⟨hr, by simpa using hg⟩

theorem polyMod_ok {fuel : Nat} {a d res : Terms} (ha : SortedT a)
    (heq : polyMod fuel a d = some (Except.ok res)) :
    Canonical res ∧ modGuard res (clean d) = false := by
  unfold polyMod at heq
  by_cases hz : isZeroCheck d = true
  · rw [if_pos hz] at heq
    simp at heq
  · rw [if_neg hz] at heq
    cases hml : modLoop fuel (clean a) (clean d) with
    | none => rw [hml] at heq; simp at heq
    | some r =>
      rw [hml] at heq
      simp only [Option.map_some'] at heq
      have hres : r = res := by
        injection heq with h
        injection h
      subst hres
      exact modLoop_some fuel (canonical_clean ha) hml

theorem key_le_degree {m : Terms} (hs : SortedT m) :
    ∀ t ∈ m, t.1 ≤ find_degree_of m := by
  match m with
  | [] => intro t ht; cases ht
  | (p, c) :: rest =>
    intro t ht
    simp only [find_degree_of, List.headD]
    rcases List.mem_cons.mp ht with ht | ht
    · rw [ht]
    · have := sorted_head_gt hs t ht
      omega

theorem pairSum_mk (shift : Nat) (s : Int) (b : Terms) (j : Nat) :
    pairSum (shift, s) b j
      = (b.map (fun bt => if shift + bt.1 = j then s * bt.2 else 0)).sum := rfl

/-- When the divisor's leading coefficient exactly divides the remainder's, the
monomial step cancels every coefficient at or above the remainder's degree. -/
theorem cancel_at_or_above {r d : Terms} (hr : SortedT r) (hd : SortedT d)
    (hdeg : find_degree_of d ≤ find_degree_of r) {s : Int}
    (hsc : s * coeffAt d (find_degree_of d) = coeffAt r (find_degree_of r)) :
    ∀ j, find_degree_of r ≤ j →
      coeffAt r j - convFun [(find_degree_of r - find_degree_of d, s)] d j = 0 := by
  intro j hj
  have hconv : convFun [(find_degree_of r - find_degree_of d, s)] d j
      = pairSum (find_degree_of r - find_degree_of d, s) d j := by
    simp [convFun]
  rw [hconv, pairSum_mk]
  rcases Nat.eq_or_lt_of_le hj with heq | hlt
  · rw [← heq]
    have hfe : (fun bt : Nat × Int =>
        if (find_degree_of r - find_degree_of d) + bt.1 = find_degree_of r
        then s * bt.2 else 0)
        = fun bt : Nat × Int => s * (if bt.1 = find_degree_of d then bt.2 else 0) := by
      funext bt
      split_ifs with h1 h2
      · rfl
      · exfalso; omega
      · exfalso; omega
      · simp
    rw [hfe, List.sum_map_mul_left]
    have : (List.map (fun bt : Nat × Int =>
        if bt.1 = find_degree_of d then bt.2 else 0) d).sum = keySum d (find_degree_of d) := rfl
    rw [this, keySum_eq_coeffAt hd, hsc]
    ring
  · rw [coeffAt_gt_degree hr hlt]
    have hps : (List.map (fun bt : Nat × Int =>
        if (find_degree_of r - find_degree_of d) + bt.1 = j
        then s * bt.2 else 0) d).sum = 0 := by
      apply List.sum_eq_zero
      intro x hx
      rcases List.mem_map.mp hx with ⟨bt, hbt, rfl⟩
      have hle := key_le_degree hd bt hbt
      rw [if_neg (by omega)]
    rw [hps]
    ring

/-- Amended per-step progress: an iteration whose leading-coefficient division
is exact strictly reduces the remainder's degree, or zeroes the remainder. -/
theorem modStep_reduces {r d : Terms} (hr : Canonical r) (hd : Canonical d)
    (hdz : isZeroCheck d = false) (hg : modGuard r d = true)
    (hdvd : coeffAt d (find_degree_of d) ∣ coeffAt r (find_degree_of r)) :
    find_degree_of (modStep r d) < find_degree_of r ∨ modStep r d = [(0, 0)] := by
  have hdeg : find_degree_of d ≤ find_degree_of r := by
    by_contra hlt
    unfold modGuard at hg
    rw [decide_eq_false hlt] at hg
    simp at hg
  have hsc : Int.tdiv (coeffAt r (find_degree_of r)) (coeffAt d (find_degree_of d))
      * coeffAt d (find_degree_of d) = coeffAt r (find_degree_of r) :=
    Int.tdiv_mul_cancel hdvd
  have hcancel := cancel_at_or_above hr.1 hd.1 hdeg hsc
  simp only [modStep]
  have hsorted := sorted_subFold hr.1 (polyMul [(find_degree_of r - find_degree_of d,
      Int.tdiv (coeffAt r (find_degree_of r)) (coeffAt d (find_degree_of d)))] d)
  have hz : ∀ j, find_degree_of r ≤ j →
      coeffAt (clean ((polyMul [(find_degree_of r - find_degree_of d,
          Int.tdiv (coeffAt r (find_degree_of r)) (coeffAt d (find_degree_of d)))] d).foldl
        (fun m t => addTerm m t.1 (-t.2)) r)) j = 0 := by
    intro j hj
    rw [coeffAt_clean hsorted, coeffAt_subFold hr.1 (sorted_polyMul _ _) j, coeffAt_polyMul]
    exact hcancel j hj
  rcases degree_lt_of_coeffAt_zero (canonical_clean hsorted) hz with h | h
  · exact Or.inr h
  · exact Or.inl h

theorem canonical_form_of_canonical {m : Terms} (hc : Canonical m) :
    canonical_form m = m := by
  rw [canonical_form_eq_clean]
  exact clean_of_canonical hc

theorem canonical_canonical_form {m : Terms} (hs : SortedT m) :
    Canonical (canonical_form m) := by
  rw [canonical_form_eq_clean]
  exact canonical_clean hs

theorem sorted_scalar_map {a : Terms} (ha : SortedT a) (x : Int) :
    SortedT (a.map (fun t => (t.1, t.2 * x))) := by
  apply List.Pairwise.map
  · intro s t hst
    exact hst
  · exact ha

theorem coeffAt_merge_partition (b : Terms) (cs : List (List (Nat × Int))) (j : Nat) :
    coeffAt (mergeLocals (cs.map (multiply_worker b))) j = convFun cs.flatten b j := by
  rw [coeffAt_mergeLocals _ (by
    intro pm hpm
    rcases List.mem_map.mp hpm with ⟨c, _, rfl⟩
    exact sorted_multiply_worker b c), List.map_map]
  have hfun : ((fun pm => coeffAt pm j) ∘ multiply_worker b)
      = fun c => convFun c b j := by
    funext c
    simp only [Function.comp_def]
    rw [coeffAt_multiply_worker]
  rw [hfun]
  exact (convFun_flatten b j cs).symm

theorem modLoop_stuck {r d : Terms} (hg : modGuard r d = true)
    (hfix : modStep r d = r) : ∀ fuel, modLoop fuel r d = none := by
  intro fuel
  induction fuel with
  | zero => unfold modLoop; rw [if_pos hg]
  | succ fuel ih => unfold modLoop; rw [if_pos hg, hfix]; exact ih

/-! ### Claim theorems -/

/-- Claim C1, counterexample: with dividend `x` and the non-zero divisor `2x`,
the loop guard holds, yet the iteration (`1 / 2` truncates to `0`, so `temp`
is the zero monomial and `subtract` is the zero polynomial) leaves the
remainder unchanged: the degree does not decrease and the loop never exits
(shown here for a budget of 5 iterations; the state is a fixed point). -/
theorem claim_C1_counterexample :
    Canonical [(1, 1)] ∧ Canonical [(1, 2)] ∧ ([(1, 2)] : Terms) ≠ zeroPoly
    ∧ modGuard [(1, 1)] [(1, 2)] = true
    ∧ modStep [(1, 1)] [(1, 2)] = [(1, 1)]
    ∧ ¬(find_degree_of (modStep [(1, 1)] [(1, 2)]) < find_degree_of [(1, 1)])
    ∧ polyMod 5 [(1, 1)] [(1, 2)] = none :=
  ⟨by decide, by decide, by decide, by decide, by decide, by decide, rfl⟩

/-- Claim C1 (amended): an iteration of the reduction loop in `operator%`
strictly reduces the remainder's degree (or zeroes the remainder) whenever the
divisor's leading coefficient exactly divides the remainder's leading
coefficient; only then is the leading term fully cancelled by `temp`, the
truncating division making the general claim false. -/
theorem claim_C1_amended_exact_division_step (r d : Terms) (hr : Canonical r)
    (hd : Canonical d) (hdz : isZeroCheck d = false) (hg : modGuard r d = true)
    (hdvd : coeffAt d (find_degree_of d) ∣ coeffAt r (find_degree_of r)) :
    find_degree_of (modStep r d) < find_degree_of r ∨ modStep r d = [(0, 0)] :=
  modStep_reduces hr hd hdz hg hdvd

/-- Witness for claim C1 (amended) at the spec's scenario 2 inputs
(`x² − 1` reduced by `x − 1`). -/
theorem claim_C1_amended_witness :
    find_degree_of (modStep [(2, 1), (0, -1)] [(1, 1), (0, -1)])
        < find_degree_of [(2, 1), (0, -1)]
      ∨ modStep [(2, 1), (0, -1)] [(1, 1), (0, -1)] = [(0, 0)] :=
  claim_C1_amended_exact_division_step [(2, 1), (0, -1)] [(1, 1), (0, -1)]
    (by decide) (by decide) (by decide) (by decide) ⟨1, by decide⟩

/-- Claim C2: the multiplication result does not depend on the partition of
A's term sequence: merging the private accumulators of any chunking whose
concatenation is A and cleaning gives exactly the cleaned sequential
double-loop accumulator, and `operator*` as written agrees everywhere with
`operator*` forced through its sequential (worker-count 1) path. -/
theorem claim_C2_partition_determinism :
    (∀ (a b : Terms) (cs : List (List (Nat × Int))), cs.flatten = a →
      clean (mergeLocals (cs.map (multiply_worker b)))
        = clean (multiply_worker b a))
    ∧ (∀ ta tb : Terms, polyMul ta tb = polyMulSeq ta tb) := by
  constructor
  · intro a b cs hflat
    apply clean_eq_clean (sorted_mergeLocals _) (sorted_multiply_worker b a)
    intro j
    rw [coeffAt_multiply_worker, coeffAt_merge_partition, hflat]
  · exact polyMul_eq_polyMulSeq

/-- Witness for claim C2: the two-chunk partition of `x² − 1` against `x − 1`
merges to the sequential accumulator. -/
theorem claim_C2_witness :
    clean (mergeLocals ([[(2, 1)], [(0, -1)]].map (multiply_worker [(1, 1), (0, -1)])))
      = clean (multiply_worker [(1, 1), (0, -1)] [(2, 1), (0, -1)]) :=
  claim_C2_partition_determinism.1 [(2, 1), (0, -1)] [(1, 1), (0, -1)]
    [[(2, 1)], [(0, -1)]] rfl

/-- Claim C3: `operator*` computes the canonicalized convolution: the
coefficient of the product at every exponent is the sum of `ca·cb` over all
term pairs with `pa+pb` equal to that exponent, the result satisfies the
canonical-form invariant, and on `x² − 1` times `x − 1` the canonical form is
`x³ − x² − x + 1`. -/
theorem claim_C3_convolution :
    (∀ (a b : Terms) (j : Nat), coeffAt (polyMul a b) j = convFun a b j)
    ∧ (∀ a b : Terms, Canonical (polyMul a b))
    ∧ canonical_form (polyMul [(2, 1), (0, -1)] [(1, 1), (0, -1)])
        = [(3, 1), (2, -1), (1, -1), (0, 1)] :=
  ⟨coeffAt_polyMul, canonical_polyMul, by decide⟩

/-- Claim C4: whenever `operator%` returns normally, the returned remainder
either has degree strictly below the divisor's degree or is the canonical zero
polynomial (this is exactly the negation of the loop guard at exit). -/
theorem claim_C4_degree_bound (fuel : Nat) (a d r : Terms) (ha : SortedT a)
    (hd : Canonical d) (heq : polyMod fuel a d = some (Except.ok r)) :
    find_degree_of r < find_degree_of d ∨ r = [(0, 0)] := by
  obtain ⟨hcr, hguard⟩ := polyMod_ok ha heq
  rw [clean_of_canonical hd] at hguard
  exact modGuard_false_cases hcr hguard

/-- Witness for claim C4 at the spec's scenario 2: `(x² − 1) % (x − 1)`
returns the canonical zero polynomial. -/
theorem claim_C4_witness :
    find_degree_of ([(0, 0)] : Terms) < find_degree_of [(1, 1), (0, -1)]
      ∨ ([(0, 0)] : Terms) = [(0, 0)] :=
  claim_C4_degree_bound 2 [(2, 1), (0, -1)] [(1, 1), (0, -1)] [(0, 0)]
    (by decide) (by decide) rfl

/-- Claim C5: `operator%` throws "Divide by zero polynomial" exactly when the
divisor is the canonical zero polynomial `[(0,0)]`, before any reduction work
(independently of the dividend and of the iteration budget); for any other
canonical divisor no such error is ever produced. -/
theorem claim_C5_divide_by_zero (d : Terms) (hd : Canonical d) :
    (d = [(0, 0)] → ∀ (fuel : Nat) (a : Terms),
      polyMod fuel a d = some (Except.error "Divide by zero polynomial"))
    ∧ (d ≠ [(0, 0)] → ∀ (fuel : Nat) (a : Terms) (s : String),
      polyMod fuel a d ≠ some (Except.error s)) := by
  constructor
  · intro h fuel a
    subst h
    rfl
  · intro h fuel a s
    have hz : isZeroCheck d = false := by
      cases hiz : isZeroCheck d
      · rfl
      · exact absurd ((isZeroCheck_iff hd).mp hiz) h
    unfold polyMod
    rw [if_neg (by simp [hz])]
    cases modLoop fuel (clean a) (clean d) with
    | none => simp
    | some r => simp

/-- Witness for claim C5: dividing `x` by the zero polynomial throws. -/
theorem claim_C5_witness :
    polyMod 3 [(1, 1)] [(0, 0)] = some (Except.error "Divide by zero polynomial") :=
  (claim_C5_divide_by_zero [(0, 0)] (by decide)).1 rfl 3 [(1, 1)]

/-- Claim C6: every polynomial produced by construction, addition (with a
polynomial or an integer), scalar multiplication, polynomial multiplication,
or a normal return of `operator%` has a `canonical_form` with no zero
coefficient (except the `(0,0)` singleton), no duplicate exponent, and
strictly descending exponents (first entry = highest-degree nonzero term). -/
theorem claim_C6_canonical_invariant :
    (∀ l : List (Nat × Int), Canonical (canonical_form (fromPairs l)))
    ∧ (∀ a b : Terms, SortedT a → Canonical (canonical_form (polyAdd a b)))
    ∧ (∀ (a : Terms) (x : Int), SortedT a → Canonical (canonical_form (polyAddInt a x)))
    ∧ (∀ (a : Terms) (x : Int), SortedT a → Canonical (canonical_form (scalarMul a x)))
    ∧ (∀ a b : Terms, Canonical (canonical_form (polyMul a b)))
    ∧ (∀ (fuel : Nat) (a d r : Terms), SortedT a →
        polyMod fuel a d = some (Except.ok r) → Canonical (canonical_form r)) := by
  refine ⟨?_, ?_, ?_, ?_, ?_, ?_⟩
  · intro l
    exact canonical_canonical_form (sorted_clean (sorted_foldl_addTerm l List.Pairwise.nil))
  · intro a b ha
    exact canonical_canonical_form (sorted_clean (sorted_foldl_addTerm b ha))
  · intro a x ha
    exact canonical_canonical_form (sorted_clean (sorted_addTerm ha))
  · intro a x ha
    exact canonical_canonical_form (sorted_clean (sorted_scalar_map ha x))
  · intro a b
    rw [canonical_form_of_canonical (canonical_polyMul a b)]
    exact canonical_polyMul a b
  · intro fuel a d r ha heq
    have hcr := (polyMod_ok ha heq).1
    rw [canonical_form_of_canonical hcr]
    exact hcr

/-- Witness for claim C6 across all six producers. -/
theorem claim_C6_witness :
    Canonical (canonical_form (fromPairs [(2, 3), (2, -3)]))
    ∧ Canonical (canonical_form (polyAdd [(1, 2)] [(0, 5)]))
    ∧ Canonical (canonical_form (polyAddInt [(1, 1), (0, 1)] 3))
    ∧ Canonical (canonical_form (scalarMul [(2, 4)] 0))
    ∧ Canonical (canonical_form (polyMul [(1, 1)] [(1, 1)]))
    ∧ Canonical (canonical_form [(0, 0)]) := by
  obtain ⟨h1, h2, h3, h4, h5, h6⟩ := claim_C6_canonical_invariant
  exact ⟨h1 [(2, 3), (2, -3)], h2 [(1, 2)] [(0, 5)] (by decide),
    h3 [(1, 1), (0, 1)] 3 (by decide), h4 [(2, 4)] 0 (by decide),
    h5 [(1, 1)] [(1, 1)],
    h6 2 [(2, 1), (0, -1)] [(1, 1), (0, -1)] [(0, 0)] (by decide) (by rfl)⟩

/-- Claim C7: `operator+(int)` changes only the exponent-0 coefficient, by
exactly the added integer, and canonicalizes; every coefficient at a nonzero
exponent is unchanged; concretely `(x + 1) + 3` is `x + 4`. -/
theorem claim_C7_add_int :
    (∀ (a : Terms) (x : Int) (k : Nat), SortedT a →
      coeffAt (polyAddInt a x) k = coeffAt a k + (if k = 0 then x else 0))
    ∧ canonical_form (polyAddInt [(1, 1), (0, 1)] 3) = [(1, 1), (0, 4)] := by
  constructor
  · intro a x k ha
    unfold polyAddInt
    rw [coeffAt_clean (sorted_addTerm ha), coeffAt_addTerm ha]
  · decide

/-- Witness for claim C7: the exponent-1 coefficient of `(x + 1) + 3` is
untouched. -/
theorem claim_C7_witness :
    coeffAt (polyAddInt [(1, 1), (0, 1)] 3) 1
      = coeffAt [(1, 1), (0, 1)] 1 + (if (1 : Nat) = 0 then (3 : Int) else 0) :=
  claim_C7_add_int.1 [(1, 1), (0, 1)] 3 1 (by decide)

/-- Claim C8: multiplying by the canonical zero polynomial (on either side)
returns the canonical zero polynomial through the early zero check, before any
multiply-accumulate; concretely `5 · x⁰` times the zero polynomial has
canonical form `[(0,0)]`. -/
theorem claim_C8_multiplicative_zero :
    (∀ a : Terms, polyMul a zeroPoly = zeroPoly)
    ∧ (∀ a : Terms, polyMul zeroPoly a = zeroPoly)
    ∧ canonical_form (polyMul [(0, 5)] [(0, 0)]) = [(0, 0)] := by
  refine ⟨?_, ?_, by decide⟩
  · intro a
    unfold polyMul
    rw [if_pos]
    rw [show isZeroCheck zeroPoly = true from rfl, Bool.or_true]
  · intro a
    unfold polyMul
    rw [if_pos]
    rw [show isZeroCheck zeroPoly = true from rfl, Bool.true_or]

/-- Claim C9: the iterator-pair constructor applied to an empty sequence
yields the canonical zero polynomial: the term map is `[(0,0)]`, its
canonical form is `[(0,0)]`, and its degree is 0. -/
theorem claim_C9_empty_constructor :
    fromPairs [] = [(0, 0)]
    ∧ canonical_form (fromPairs []) = [(0, 0)]
    ∧ find_degree_of (fromPairs []) = 0 := by
  decide

/-- Claim C10: rebuilding a polynomial from the pair sequence returned by
`canonical_form` reproduces the same `canonical_form`. -/
theorem claim_C10_roundtrip (p : Terms) (hp : Canonical p) :
    canonical_form (fromPairs (canonical_form p)) = canonical_form p := by
  rw [canonical_form_of_canonical hp]
  unfold fromPairs
  have hsX : SortedT (p.foldl (fun m t => addTerm m t.1 t.2) []) :=
    sorted_foldl_addTerm p List.Pairwise.nil
  rw [canonical_form_eq_clean, clean_of_canonical (canonical_clean hsX)]
  have hco : ∀ j, coeffAt (p.foldl (fun m t => addTerm m t.1 t.2) []) j = coeffAt p j := by
    intro j
    rw [coeffAt_foldl_addTerm p List.Pairwise.nil]
    simp [coeffAt, keySum_eq_coeffAt hp.1]
  rw [clean_eq_clean hsX hp.1 hco, clean_of_canonical hp]

/-- Witness for claim C10 on `x² − 1`. -/
theorem claim_C10_witness :
    canonical_form (fromPairs (canonical_form [(2, 1), (0, -1)]))
      = canonical_form [(2, 1), (0, -1)] :=
  claim_C10_roundtrip [(2, 1), (0, -1)] (by decide)

example : clean [(3, 0), (1, 2)] = [(1, 2)] := by decide
example : fromPairs [] = [(0, 0)] := by decide
example : polyMul [(2, 1), (0, -1)] [(1, 1), (0, -1)] = [(3, 1), (2, -1), (1, -1), (0, 1)] := by decide
example : polyAddInt [(1, 1), (0, 1)] 3 = [(1, 1), (0, 4)] := by decide
example : modStep [(1, 1)] [(1, 2)] = [(1, 1)] := by decide
example : modGuard [(1, 1)] [(1, 2)] = true := by decide
example : polyMod 4 [(2, 1), (0, -1)] [(1, 1), (0, -1)] = some (Except.ok [(0, 0)]) := rfl
example : polyMod 5 [(1, 1)] [(1, 2)] = none := rfl
